import Mathlib

/-!
Verification of the CS351 PA9 demonstration scripts.

Each Python script is shallowly embedded: Python objects live on explicit
heaps (a heap is a list of objects, an address an index into it), so that
the pass-by-object-reference semantics the scripts demonstrate — rebinding
a local name allocates, mutating an object updates the heap in place — is
visible in the embedding.  Threaded code is embedded as a small-step
machine driven by an explicit schedule (a list of worker indices), so that
claims about "every interleaving" quantify over all schedules.
-/

namespace PassByObjRef

/-! Embedding of src/01-pass-by-object-reference.py.  Mutable list objects
live on a `Heap`; a Python name bound to a list holds an address into it. -/

/-- A heap of mutable list objects; an address is an index into the heap. -/
abbrev Heap := List (List Int)

/-- Dereference an address: the list object it names (out-of-range addresses
read as `[]`; all theorems keep addresses in range). -/
def readObj (h : Heap) (a : Nat) : List Int := h.getD a []

/-- Line 33: `try_modify_list(lst)` does `lst.append(4)`, an in-place
mutation of the object at the caller's address. -/
def try_modify_list (h : Heap) (a : Nat) : Heap :=
  h.set a (readObj h a ++ [4])

/-- Line 51: `reassign_list(lst)` does `lst = [99, 98, 97]`: a fresh list is
allocated and the local name rebinds to it; the returned address is the
local binding after the rebind.  The caller's address is untouched. -/
def reassign_list (h : Heap) (a : Nat) : Heap × Nat :=
  (h ++ [[99, 98, 97]], h.length)

/-- Line 58: `mutate_list(lst)` does `lst[:] = [99, 98, 97]`, replacing the
contents of the same object in place. -/
def mutate_list (h : Heap) (a : Nat) : Heap :=
  h.set a [99, 98, 97]

/-- A heap of (immutable) integer objects, for the scalar demonstrations. -/
abbrev IntHeap := List Int

/-- Dereference an address on the integer heap. -/
def readInt (h : IntHeap) (a : Nat) : Int := h.getD a 0

/-- Line 13: `try_modify_int(x)` does `x = x + 10`, which allocates a NEW
integer object and rebinds the local name to it, then returns it; the
result is the new heap and the address of the new object. -/
def try_modify_int (h : IntHeap) (a : Nat) : IntHeap × Nat :=
  (h ++ [readInt h a + 10], h.length)

theorem readObj_set_self (h : Heap) (a : Nat) (v : List Int) (ha : a < h.length) :
    readObj (h.set a v) a = v := by
  simp [readObj, List.getD, List.getElem?_set_self, ha]

theorem readObj_append_left (h : Heap) (t : Heap) (a : Nat) (ha : a < h.length) :
    readObj (h ++ t) a = readObj h a := by
  simp [readObj, List.getD, List.getElem?_append_left ha]

theorem readInt_append_left (h : IntHeap) (t : IntHeap) (a : Nat) (ha : a < h.length) :
    readInt (h ++ t) a = readInt h a := by
  simp [readInt, List.getD, List.getElem?_append_left ha]

/-- C2: a container passed into a routine is shared, not copied: the in-place
mutations of `try_modify_list` (append 4) and `mutate_list` (replace the
contents) are observed by the caller at its own address afterwards, while the
local rebinding of `reassign_list` leaves the caller's observation unchanged. -/
theorem list_param_mutation_observed_rebinding_not (h : Heap) (a : Nat)
    (ha : a < h.length) :
    readObj (try_modify_list h a) a = readObj h a ++ [4] ∧
    readObj (reassign_list h a).1 a = readObj h a ∧
    readObj (mutate_list h a) a = [99, 98, 97] := by
  refine ⟨?_, ?_, ?_⟩
  · exact readObj_set_self h a _ ha
  · exact readObj_append_left h _ a ha
  · exact readObj_set_self h a _ ha

/-- Witness for C2 at the script's concrete scenario: the caller's list
`[1, 2, 3]` reads `[1, 2, 3, 4]` after the append, is unchanged by the
rebinding routine, and reads `[99, 98, 97]` after the in-place replacement. -/
theorem list_param_mutation_observed_rebinding_not_witness :
    readObj (try_modify_list [[1, 2, 3]] 0) 0 = readObj [[1, 2, 3]] 0 ++ [4] ∧
    readObj (reassign_list [[1, 2, 3]] 0).1 0 = readObj [[1, 2, 3]] 0 ∧
    readObj (mutate_list [[1, 2, 3]] 0) 0 = [99, 98, 97] :=
  list_param_mutation_observed_rebinding_not [[1, 2, 3]] 0 (by decide)

/-- C4: a scalar passed into a routine is never changed for the caller by a
local rebinding: after `try_modify_int`, the caller's address still reads its
old value, while the returned address reads the new value (old + 10). -/
theorem scalar_param_rebinding_unobserved (h : IntHeap) (a : Nat)
    (ha : a < h.length) :
    readInt (try_modify_int h a).1 a = readInt h a ∧
    readInt (try_modify_int h a).1 (try_modify_int h a).2 = readInt h a + 10 := by
  constructor
  · exact readInt_append_left h _ a ha
  · simp [try_modify_int, readInt, List.getD]

/-- Witness for C4 at the script's concrete scenario: `num = 5` is unchanged
by the call and the returned object reads `15`. -/
theorem scalar_param_rebinding_unobserved_witness :
    readInt (try_modify_int [5] 0).1 0 = readInt [5] 0 ∧
    readInt (try_modify_int [5] 0).1 (try_modify_int [5] 0).2 = readInt [5] 0 + 10 :=
  scalar_param_rebinding_unobserved [5] 0 (by decide)

/-- A value as seen by the identity/mutation probe: either an immutable
scalar object or a mutable container object (each a heap address). -/
inductive Value where
  | scalar (addr : Nat)
  | container (addr : Nat)
deriving DecidableEq

/-- Error signalled when in-place mutation is attempted on an immutable value. -/
inductive ProbeError where
  | UnsupportedOperation
deriving DecidableEq

/-- Modelled from the spec: the IdentityMutationProbe operation
`mutateInPlace(value)` is not implemented by src/ (the script's
`try_modify_int` only rebinds a local name and raises nothing); the spec
says it is "valid only for container values; alters the referenced storage
such that every alias observes the change; fails (signals
`UnsupportedOperation`) if applied to a scalar".  `m` is the in-place
mutation to apply to the container's contents. -/
def mutateInPlace (m : List Int → List Int) (h : Heap) : Value → Except ProbeError Heap
  | .scalar _ => .error .UnsupportedOperation
  | .container a => .ok (h.set a (m (readObj h a)))

/-- Modelled from the spec: the probe's call site catches
`UnsupportedOperation`, reports it (the Bool records that a failure line was
printed), and the demonstration continues with the heap unchanged. -/
def probeMutate (m : List Int → List Int) (h : Heap) (v : Value) : Heap × Bool :=
  match mutateInPlace m h v with
  | .error .UnsupportedOperation => (h, true)
  | .ok h2 => (h2, false)

/-- C7: `mutateInPlace` on a scalar fails with `UnsupportedOperation`, the
failure is recovered at the call site (heap unchanged, failure reported) and
the demonstration continues; on a container it succeeds and the change is
observed through the caller's alias of the same address. -/
theorem mutateInPlace_scalar_fails_container_mutates
    (m : List Int → List Int) (h : Heap) (a b : Nat) (hb : b < h.length) :
    mutateInPlace m h (.scalar a) = .error .UnsupportedOperation ∧
    probeMutate m h (.scalar a) = (h, true) ∧
    ∃ h2, mutateInPlace m h (.container b) = .ok h2 ∧
      readObj h2 b = m (readObj h b) := by
  refine ⟨rfl, rfl, h.set b (m (readObj h b)), rfl, ?_⟩
  exact readObj_set_self h b _ hb

/-- Witness for C7: appending 4 to the scalar object at address 0 of `[7]`
is refused and recovered, while the same mutation on the container
`[1, 2, 3]` is observed through the alias. -/
theorem mutateInPlace_scalar_fails_container_mutates_witness :
    mutateInPlace (fun l => l ++ [4]) [[1, 2, 3]] (.scalar 0) =
      .error .UnsupportedOperation ∧
    probeMutate (fun l => l ++ [4]) [[1, 2, 3]] (.scalar 0) = ([[1, 2, 3]], true) ∧
    ∃ h2, mutateInPlace (fun l => l ++ [4]) [[1, 2, 3]] (.container 0) = .ok h2 ∧
      readObj h2 0 = (fun l => l ++ [4]) (readObj [[1, 2, 3]] 0) :=
  mutateInPlace_scalar_fails_container_mutates (fun l => l ++ [4]) [[1, 2, 3]] 0 0
    (by decide)

end PassByObjRef

namespace DuckTyping

/-! Embedding of src/02-duck-typing.py: the three classes and the
dispatch-by-available-operation call site `make_it_quack`. -/

/-- The object kinds of the script: `Duck` and `Person` expose `quack` and
`walk`; `Dog` exposes `bark` and `walk` but no `quack`. -/
inductive PyObj where
  | Duck
  | Person
  | Dog
deriving DecidableEq

/-- The class name of an object, as Python would report it. -/
def className : PyObj → String
  | .Duck => "Duck"
  | .Person => "Person"
  | .Dog => "Dog"

/-- The method table of each class, with each method's return value, exactly
as defined in the script (the methods take no arguments and return strings). -/
def lookupMethod : PyObj → String → Option String
  | .Duck, "quack" => some "Quack!"
  | .Duck, "walk" => some "Waddle waddle"
  | .Person, "quack" => some "I\x27m imitating a duck: Quack!"
  | .Person, "walk" => some "Walking on two legs"
  | .Dog, "bark" => some "Woof!"
  | .Dog, "walk" => some "Walking on four legs"
  | _, _ => none

/-- Whether the object exposes the named operation. -/
def hasCapability (o : PyObj) (op : String) : Bool :=
  (lookupMethod o op).isSome

/-- Failure of dispatch: the operation is not exposed by the object
(Python's `AttributeError`, carrying the operation and the class name). -/
inductive DispatchError where
  | CapabilityMissing (op : String) (desc : String)
deriving DecidableEq

/-- Dynamic dispatch: look the operation up on the object at call time;
absent operations fail here, at the call site, with `CapabilityMissing`. -/
def invoke (o : PyObj) (op : String) : Except DispatchError String :=
  match lookupMethod o op with
  | some r => .ok r
  | none => .error (.CapabilityMissing op (className o))

/-- Line 37: `make_it_quack(thing)` returns `thing.quack()` without caring
about the type of `thing`. -/
def make_it_quack (o : PyObj) : Except DispatchError String :=
  invoke o "quack"

/-- C3: dispatching `quack` succeeds exactly on the objects that expose a
`quack` operation: `Duck` yields `"Quack!"`, `Person` succeeds through the
same call site, and `Dog` fails at the call site with
`CapabilityMissing("quack", "Dog")`. -/
theorem make_it_quack_dispatch :
    make_it_quack .Duck = .ok "Quack!" ∧
    (make_it_quack .Person).isOk = true ∧
    make_it_quack .Dog = .error (.CapabilityMissing "quack" "Dog") ∧
    ∀ o : PyObj, (make_it_quack o).isOk = hasCapability o "quack" := by
  refine ⟨rfl, rfl, rfl, ?_⟩
  intro o
  cases o <;> rfl

end DuckTyping

namespace ObjComparison

/-! Embedding of the `Counter` class of src/05-obj-to-python-comparison.py:
a class variable `count` shared by all instances, and a per-instance field
`id`.  `__init__` does `Counter.count += 1; self.id = Counter.count`. -/

/-- One construction: given the current class-level `count`, return the new
class-level count and the new instance's `id` field. -/
def counterInit (count : Nat) : Nat × Nat := (count + 1, count + 1)

/-- Construct `k` instances starting from a fresh class state (`count = 0`),
returning the final class-level count and the instance ids in construction
order. -/
def constructInstances : Nat → Nat × List Nat
  | 0 => (0, [])
  | k + 1 =>
    let s := constructInstances k
    let r := counterInit s.1
    (r.1, s.2 ++ [r.2])

theorem constructInstances_count (k : Nat) : (constructInstances k).1 = k := by
  induction k with
  | zero => rfl
  | succ k ih => simp [constructInstances, counterInit, ih]

theorem constructInstances_ids (k : Nat) :
    (constructInstances k).2 = (List.range k).map (fun i => i + 1) := by
  induction k with
  | zero => rfl
  | succ k ih =>
    simp [constructInstances, counterInit, ih, List.range_succ,
      constructInstances_count]

/-- C9: after constructing `k` instances from a fresh class state, the shared
class-level count equals `k`; there are `k` ids, the `i`-th constructed
instance (0-based) has id `i + 1`, and all ids are distinct. -/
theorem counter_class_state_and_instance_ids (k : Nat) :
    (constructInstances k).1 = k ∧
    (constructInstances k).2.length = k ∧
    (∀ i, i < k → (constructInstances k).2.getD i 0 = i + 1) ∧
    (constructInstances k).2.Nodup := by
  refine ⟨constructInstances_count k, ?_, ?_, ?_⟩
  · simp [constructInstances_ids]
  · intro i hi
    simp [constructInstances_ids, List.getD, List.getElem?_map,
      List.getElem?_range hi]
  · rw [constructInstances_ids]
    exact (List.nodup_range k).map (fun a b h => by omega)

end ObjComparison

namespace ThreadsVsProcesses

/-! Embedding of src/03-threads-vs-processes.py: the shared counter under
synchronized and unsynchronized concurrent increments, and the isolated
memory of worker processes.  A run is driven by a schedule, a list of worker
indices naming which worker takes the next step; quantifying over schedules
quantifies over all interleavings. -/

/-- One scheduled event of the synchronized run: some worker executes the
body of `increment_shared_safe` once, i.e. acquires the lock and performs
the whole read-modify-write `counter["value"] += 1` atomically. -/
def lockedIncrement (c : Nat) (w : Nat) : Nat := c + 1

/-- The synchronized run of lines 46-50: starting from `counter["value"] = 0`,
execute the scheduled locked increments in order; the result is the final
counter value. -/
def increment_shared_safe (sched : List Nat) : Nat :=
  sched.foldl lockedIncrement 0

/-- A schedule in which each of the `W` workers performs exactly `N`
increments: every event names a worker below `W` and each worker `w < W`
occurs exactly `N` times. -/
def CompleteSchedule (W N : Nat) (sched : List Nat) : Prop :=
  (∀ i ∈ sched, i < W) ∧ ∀ w, w < W → sched.count w = N

/-- The canonical (purely sequential) schedule: worker 0 runs its `N`
increments, then worker 1, and so on. -/
def seqSchedule (W N : Nat) : List Nat :=
  (List.range W).flatMap (fun w => List.replicate N w)

theorem increment_shared_safe_eq_length (sched : List Nat) :
    increment_shared_safe sched = sched.length := by
  suffices h : ∀ c : Nat, sched.foldl lockedIncrement c = c + sched.length by
    simpa [increment_shared_safe] using h 0
  induction sched with
  | nil => intro c; simp
  | cons x xs ih =>
    intro c
    simp [List.foldl_cons, ih, lockedIncrement]
    omega

theorem count_seqSchedule (W N a : Nat) :
    (seqSchedule W N).count a = if a < W then N else 0 := by
  induction W with
  | zero => simp [seqSchedule]
  | succ W ih =>
    simp only [seqSchedule, List.range_succ, List.flatMap_append,
      List.count_append] at *
    rw [ih]
    simp [List.count_replicate]
    rcases Nat.lt_trichotomy a W with h | h | h
    · have h1 : a < W + 1 := by omega
      have h2 : W ≠ a := by omega
      simp [h, h1, h2]
    · simp [h, Nat.lt_irrefl]
    · have h1 : ¬ a < W := by omega
      have h2 : ¬ a < W + 1 := by omega
      have h3 : W ≠ a := by omega
      simp [h1, h2, h3]

theorem length_seqSchedule (W N : Nat) : (seqSchedule W N).length = W * N := by
  induction W with
  | zero => simp [seqSchedule]
  | succ W ih =>
    simp only [seqSchedule, List.range_succ, List.flatMap_append,
      List.length_append] at *
    simp [ih, Nat.succ_mul]

theorem complete_schedule_length (W N : Nat) (sched : List Nat)
    (h : CompleteSchedule W N sched) : sched.length = W * N := by
  obtain ⟨hmem, hcnt⟩ := h
  have hperm : sched.Perm (seqSchedule W N) := by
    rw [List.perm_iff_count]
    intro a
    rw [count_seqSchedule]
    by_cases ha : a < W
    · simp [ha, hcnt a ha]
    · have : a ∉ sched := fun hmem2 => ha (hmem a hmem2)
      simp [ha, List.count_eq_zero.2 this]
  rw [hperm.length_eq, length_seqSchedule]

/-- C1: under mutual exclusion the shared counter is exact: for every number
of workers `W ≥ 1`, increments per worker `N ≥ 0`, and every interleaving in
which each worker performs its `N` locked increments, the final counter
value is exactly `W * N`. -/
theorem synchronized_counter_exact (W N : Nat) (sched : List Nat)
    (hW : 1 ≤ W) (hsched : CompleteSchedule W N sched) :
    increment_shared_safe sched = W * N := by
  rw [increment_shared_safe_eq_length, complete_schedule_length W N sched hsched]

/-- Witness for C1: two workers, three increments each, perfectly
interleaved, reach exactly 2 * 3. -/
theorem synchronized_counter_exact_witness :
    increment_shared_safe [0, 1, 0, 1, 0, 1] = 2 * 3 :=
  synchronized_counter_exact 2 3 [0, 1, 0, 1, 0, 1] (by decide)
    ⟨by decide, by decide⟩

/-- The increment loop of `increment_process` (lines 90-96): `n` iterations
of `counter["value"] += 1` on the process's own counter, starting from `v`. -/
def incrLoop : Nat → Nat → Nat
  | 0, v => v
  | n + 1, v => incrLoop n (v + 1)

/-- Lines 90-96: `increment_process(n)` runs in a child process whose memory
is a copy of the parent's; it rebinds its own global `counter` to a fresh
`{"value": 0}` (ignoring the copied value) and increments it `n` times. -/
def increment_process (parentCopy : Nat) (n : Nat) : Nat :=
  incrLoop n 0

/-- The isolated-memory run (lines 99-110): the parent spawns `W` processes,
each receiving a copy of the parent's counter; no child can write the
parent's memory, so the run returns the parent's counter unchanged together
with each child's final private counter. -/
def runIsolated (parent : Nat) (W n : Nat) : Nat × List Nat :=
  (parent, (List.range W).map (fun _ => increment_process parent n))

theorem incrLoop_eq (n v : Nat) : incrLoop n v = v + n := by
  induction n generalizing v with
  | zero => simp [incrLoop]
  | succ n ih => simp [incrLoop, ih]; omega

/-- C5: isolated-memory workers have no effect on the parent: after all `W`
workers complete, the parent's counter equals its value before they started,
while each worker's private counter reached `n`. -/
theorem isolated_workers_leave_parent_unchanged (parent W n : Nat) :
    (runIsolated parent W n).1 = parent ∧
    ∀ c ∈ (runIsolated parent W n).2, c = n := by
  refine ⟨rfl, ?_⟩
  intro c hc
  simp only [runIsolated, List.mem_map] at hc
  obtain ⟨i, -, rfl⟩ := hc
  simpa [increment_process] using incrLoop_eq n 0

/-- Per-worker state of the unsynchronized run: how many of its increments
it has not yet begun and, when it is midway through one, the counter value
it read but has not yet written back.  Without the lock,
`counter["value"] += 1` (lines 40-43) is a read followed by a write, and the
two can be separated by other workers' steps — the lost-update race. -/
structure RaceWorker where
  remaining : Nat
  temp : Option Nat
deriving DecidableEq

/-- Global state of the unsynchronized run: the shared counter and every
worker's private state. -/
structure RaceState where
  counter : Nat
  workers : List RaceWorker
deriving DecidableEq

/-- 1 when the worker holds a read value it has not yet written back. -/
def pendBit (w : RaceWorker) : Nat := if w.temp.isSome then 1 else 0

/-- One scheduled machine step of worker `i` in `increment_shared`: a worker
holding a read value writes it back plus one; otherwise, if it still has
increments to perform, it reads the shared counter.  Scheduling a finished
or nonexistent worker does nothing. -/
def raceStep (s : RaceState) (i : Nat) : RaceState :=
  match s.workers[i]? with
  | none => s
  | some w =>
    match w.temp with
    | some t => ⟨t + 1, s.workers.set i ⟨w.remaining, none⟩⟩
    | none =>
      match w.remaining with
      | 0 => s
      | r + 1 => ⟨s.counter, s.workers.set i ⟨r, some s.counter⟩⟩

/-- Run the unsynchronized machine under a schedule. -/
def raceRun (s : RaceState) (sched : List Nat) : RaceState :=
  sched.foldl raceStep s

/-- Initial state of the unsynchronized demonstration: counter 0 and `W`
workers with `N` increments each. -/
def raceInit (W N : Nat) : RaceState := ⟨0, List.replicate W ⟨N, none⟩⟩

/-- Number of write-backs the worker has completed, out of its `N`. -/
def writesDone (N : Nat) (w : RaceWorker) : Nat := N - (w.remaining + pendBit w)

/-- Total write-backs completed so far across all workers. -/
def totalWrites (N : Nat) (s : RaceState) : Nat :=
  (s.workers.map (writesDone N)).sum

/-- Inductive invariant of the unsynchronized run: every worker has at most
`N` increments outstanding, the counter never exceeds the number of
completed write-backs, and every read-but-unwritten value is bounded the
same way. -/
def RaceInv (N : Nat) (s : RaceState) : Prop :=
  (∀ w ∈ s.workers, w.remaining + pendBit w ≤ N) ∧
  s.counter ≤ totalWrites N s ∧
  ∀ w ∈ s.workers, ∀ t, w.temp = some t → t ≤ totalWrites N s

theorem sum_map_set {α : Type} (f : α → Nat) (a : α) (l : List α) (i : Nat)
    (h : i < l.length) :
    ((l.set i a).map f).sum + f (l.get ⟨i, h⟩) = (l.map f).sum + f a := by
  induction l generalizing i with
  | nil => simp at h
  | cons x xs ih =>
    cases i with
    | zero => simp [List.set]; omega
    | succ i =>
      have hi : i < xs.length := by simpa using h
      have := ih i hi
      simp [List.set, List.get] at *
      omega

theorem raceInv_step (N : Nat) (s : RaceState) (i : Nat)
    (hinv : RaceInv N s) : RaceInv N (raceStep s i) := by
  obtain ⟨h1, h2, h3⟩ := hinv
  cases hw : s.workers[i]? with
  | none =>
    simp only [raceStep, hw]
    exact ⟨h1, h2, h3⟩
  | some w =>
    have hi : i < s.workers.length := by
      by_contra hcon
      rw [List.getElem?_eq_none (by omega)] at hw
      exact Option.noConfusion hw
    have hgetw : s.workers.get ⟨i, hi⟩ = w := by
      have := List.getElem?_eq_getElem hi
      rw [hw] at this
      simpa [List.get_eq_getElem] using (Option.some.inj this).symm
    have hwmem : w ∈ s.workers := by
      rw [← hgetw]
      exact List.get_mem s.workers i hi
    cases ht : w.temp with
    | some t =>
      simp only [raceStep, hw, ht]
      have hsum := sum_map_set (writesDone N) ⟨w.remaining, none⟩ s.workers i hi
      rw [hgetw] at hsum
      have hwold : writesDone N w = N - (w.remaining + 1) := by
        simp [writesDone, pendBit, ht]
      have hwnew : writesDone N (⟨w.remaining, none⟩ : RaceWorker) =
          N - w.remaining := by
        simp [writesDone, pendBit]
      have hb : w.remaining + 1 ≤ N := by
        have := h1 w hwmem
        simpa [pendBit, ht] using this
      have hsum2 : ((s.workers.set i ⟨w.remaining, none⟩).map (writesDone N)).sum =
          (s.workers.map (writesDone N)).sum + 1 := by
        rw [hwold, hwnew] at hsum
        omega
      have htw : t ≤ totalWrites N s := h3 w hwmem t ht
      refine ⟨?_, ?_, ?_⟩
      · intro w2 hmem2
        rcases List.mem_or_eq_of_mem_set hmem2 with hold | hnew
        · exact h1 w2 hold
        · subst hnew
          simp [pendBit]
          omega
      · simp only [totalWrites]
        simp only [totalWrites] at htw
        omega
      · intro w2 hmem2 t2 ht2
        simp only [totalWrites]
        rcases List.mem_or_eq_of_mem_set hmem2 with hold | hnew
        · have := h3 w2 hold t2 ht2
          simp only [totalWrites] at this
          omega
        · subst hnew
          exact Option.noConfusion ht2
    | none =>
      cases hr : w.remaining with
      | zero =>
        simp only [raceStep, hw, ht, hr]
        exact ⟨h1, h2, h3⟩
      | succ r =>
        simp only [raceStep, hw, ht, hr]
        have hsum := sum_map_set (writesDone N) ⟨r, some s.counter⟩ s.workers i hi
        rw [hgetw] at hsum
        have hwold : writesDone N w = N - (r + 1) := by
          simp [writesDone, pendBit, ht, hr]
        have hwnew : writesDone N (⟨r, some s.counter⟩ : RaceWorker) =
            N - (r + 1) := by
          simp [writesDone, pendBit]
        have hb : r + 1 ≤ N := by
          have := h1 w hwmem
          simpa [pendBit, ht, hr] using this
        have hsum2 : ((s.workers.set i ⟨r, some s.counter⟩).map (writesDone N)).sum =
            (s.workers.map (writesDone N)).sum := by
          rw [hwold, hwnew] at hsum
          omega
        refine ⟨?_, ?_, ?_⟩
        · intro w2 hmem2
          rcases List.mem_or_eq_of_mem_set hmem2 with hold | hnew
          · exact h1 w2 hold
          · subst hnew
            simp [pendBit]
            omega
        · simp only [totalWrites]
          simp only [totalWrites] at h2
          omega
        · intro w2 hmem2 t2 ht2
          simp only [totalWrites]
          simp only [totalWrites] at h2 h3
          rcases List.mem_or_eq_of_mem_set hmem2 with hold | hnew
          · have := h3 w2 hold t2 ht2
            omega
          · subst hnew
            simp at ht2
            omega

theorem raceRun_inv (N : Nat) (sched : List Nat) (s : RaceState)
    (hinv : RaceInv N s) : RaceInv N (raceRun s sched) := by
  induction sched generalizing s with
  | nil => exact hinv
  | cons x xs ih =>
    simp only [raceRun, List.foldl_cons]
    exact ih (raceStep s x) (raceInv_step N s x hinv)

theorem raceStep_workers_length (s : RaceState) (i : Nat) :
    (raceStep s i).workers.length = s.workers.length := by
  cases hw : s.workers[i]? with
  | none => simp [raceStep, hw]
  | some w =>
    cases ht : w.temp with
    | some t => simp [raceStep, hw, ht]
    | none =>
      cases hr : w.remaining with
      | zero => simp [raceStep, hw, ht, hr]
      | succ r => simp [raceStep, hw, ht, hr]

theorem raceRun_workers_length (sched : List Nat) (s : RaceState) :
    (raceRun s sched).workers.length = s.workers.length := by
  induction sched generalizing s with
  | nil => rfl
  | cons x xs ih =>
    simp only [raceRun, List.foldl_cons]
    rw [show (List.foldl raceStep (raceStep s x) xs) = raceRun (raceStep s x) xs from rfl,
      ih (raceStep s x), raceStep_workers_length]

theorem totalWrites_le (N : Nat) (s : RaceState) :
    totalWrites N s ≤ s.workers.length * N := by
  have hb : ∀ x ∈ s.workers.map (writesDone N), x ≤ N := by
    intro x hx
    obtain ⟨w, -, rfl⟩ := List.mem_map.1 hx
    exact Nat.sub_le _ _
  have := List.sum_le_card_nsmul _ N hb
  simpa [smul_eq_mul, Nat.mul_comm, List.length_map] using this

theorem raceInv_init (W N : Nat) : RaceInv N (raceInit W N) := by
  refine ⟨?_, ?_, ?_⟩
  · intro w hw
    have := List.eq_of_mem_replicate hw
    subst this
    simp [pendBit]
  · exact Nat.zero_le _
  · intro w hw t ht
    have := List.eq_of_mem_replicate hw
    subst this
    exact Option.noConfusion ht

/-- C6: the unsynchronized shared counter never exceeds `W * N`: for every
number of workers `W ≥ 2`, increments per worker `N ≥ 1000`, and every
interleaving of the workers' read and write steps, the final counter value
is at most `W * N` (it may be smaller, through lost updates). -/
theorem unsynchronized_counter_at_most (W N : Nat) (sched : List Nat)
    (hW : 2 ≤ W) (hN : 1000 ≤ N) :
    (raceRun (raceInit W N) sched).counter ≤ W * N := by
  have hinv := raceRun_inv N sched (raceInit W N) (raceInv_init W N)
  have h2 := hinv.2.1
  have hb := totalWrites_le N (raceRun (raceInit W N) sched)
  have hlen : (raceRun (raceInit W N) sched).workers.length = W := by
    rw [raceRun_workers_length]
    simp [raceInit]
  rw [hlen] at hb
  exact le_trans h2 hb

/-- Witness for C6: two workers with 1000 increments each, under one
concrete interleaving of reads and writes, end at a counter of at most
2 * 1000. -/
theorem unsynchronized_counter_at_most_witness :
    (raceRun (raceInit 2 1000) [0, 1, 0, 1]).counter ≤ 2 * 1000 :=
  unsynchronized_counter_at_most 2 1000 [0, 1, 0, 1] (by decide) (by decide)

end ThreadsVsProcesses

namespace GilEvolution

/-! Embedding of `parallel_computation` from src/04-python-gil-evolution.py
(lines 165-191): the data is cut into `num_threads` contiguous chunks, each
worker thread sums the squares of its chunk into its own slot of `results`,
and after all threads are joined the slots are summed. -/

/-- Sum of squares of a list: `sum(x * x for x in chunk)`. -/
def sumSq (l : List Int) : Int := (l.map (fun x => x * x)).sum

/-- The worker body: the partial result the thread computes from its chunk
and writes into its private slot `results[index]`. -/
def workerResult (chunk : List Int) : Int := sumSq chunk

/-- Python's `range(n)` for an integer argument: empty when `n ≤ 0`. -/
def pyRange (n : Int) : List Nat := List.range n.toNat

/-- Python's slice `l[s:e]` for integer endpoints: a negative endpoint
counts from the end, and both endpoints clamp to the list. -/
def pySlice (l : List Int) (s e : Int) : List Int :=
  let n : Int := l.length
  let s2 : Int := if s < 0 then max (n + s) 0 else s
  let e2 : Int := if e < 0 then max (n + e) 0 else e
  (l.drop s2.toNat).take (e2.toNat - s2.toNat)

/-- Failure mode of the harness when invoked with `num_threads = 0`:
`chunk_size = len(data) // num_threads` raises ZeroDivisionError, and
nothing in the script catches it. -/
inductive PyRunError where
  | zeroDivisionError
deriving DecidableEq

/-- Lines 165-191: `parallel_computation(data, num_threads)`, with the
elapsed-time component omitted.  Worker `i` receives
`data[i*chunk_size : i*chunk_size + chunk_size]`, except that the last
worker takes everything to the end of the data; the returned value is
`sum(results)`.  Each thread writes a distinct slot of `results`, so after
all threads are joined the outcome reads as this sequential map; theorem
`parallel_computation_total_correct` proves the write order irrelevant.
With `num_threads = 0` the chunk-size division raises; with
`num_threads < 0` the spawn loop never runs (`range` is empty and
`[0] * num_threads` is `[]`), so the sum of no results is returned. -/
def parallel_computation (data : List Int) (numThreads : Int) :
    Except PyRunError Int :=
  if numThreads = 0 then .error .zeroDivisionError
  else
    let chunkSize : Int := Int.fdiv data.length numThreads
    let results : List Int := (pyRange numThreads).map (fun (i : Nat) =>
      let startIdx : Int := (i : Int) * chunkSize
      let endIdx : Int :=
        if (i : Int) < numThreads - 1 then startIdx + chunkSize else data.length
      workerResult (pySlice data startIdx endIdx))
    .ok results.sum

/-- C8 counterexample: invoked with the non-positive worker count -1, the
harness does not fail at all — it silently returns a successful total of 0
(the spawn loop is empty), so no `InvalidConfiguration` error reaches the
caller. -/
theorem parallel_computation_neg_one_no_failure :
    parallel_computation [1, 2, 3] (-1) = .ok 0 := rfl

/-- C8 amended: the harness has no worker-count validation.  With
`num_threads = 0` it fails with an uncaught ZeroDivisionError (the raw
division by zero, not an `InvalidConfiguration` error), which propagates to
the caller; with `num_threads < 0` it does not fail at all and returns a
total of 0 without doing any work. -/
theorem parallel_computation_nonpositive_threads (data : List Int) (k : Int) :
    parallel_computation data 0 = .error .zeroDivisionError ∧
    (k < 0 → parallel_computation data k = .ok 0) := by
  constructor
  · rfl
  · intro hk
    have hne : k ≠ 0 := by omega
    have h0 : k.toNat = 0 := Int.toNat_of_nonpos (le_of_lt hk)
    simp [parallel_computation, hne, pyRange, h0]

/-- The chunk handed to worker `i` when the data is split among `k` threads
(natural-number indices; theorem `parallel_computation_eq_chunks` shows this
agrees with the slices taken in `parallel_computation` for
`num_threads = k ≥ 1`). -/
def chunkFor (data : List Int) (k i : Nat) : List Int :=
  let c := data.length / k
  let s := i * c
  let e := if i < k - 1 then s + c else data.length
  (data.drop s).take (e - s)

/-- The worker threads write their slots in an arbitrary completion order
`order`; a write to a slot that does not exist is a no-op. -/
def applyWrites (data : List Int) (k : Nat) (order : List Nat)
    (results : List Int) : List Int :=
  order.foldl (fun r i => r.set i (workerResult (chunkFor data k i))) results

/-- The total of `parallel_computation` as produced by an explicit write
schedule: start from `results = [0] * k`, apply the slot writes in the order
the threads happen to finish, and sum the slots. -/
def parallelTotal (data : List Int) (k : Nat) (order : List Nat) : Int :=
  (applyWrites data k order (List.replicate k 0)).sum

theorem applyWrites_length (data : List Int) (k : Nat) (order : List Nat)
    (r : List Int) : (applyWrites data k order r).length = r.length := by
  induction order generalizing r with
  | nil => rfl
  | cons o os ih =>
    simp only [applyWrites, List.foldl_cons] at *
    rw [ih, List.length_set]

theorem applyWrites_getElem? (data : List Int) (k : Nat) (order : List Nat)
    (r : List Int) (j : Nat) (hj : j < r.length) :
    (applyWrites data k order r)[j]? =
      if j ∈ order then some (workerResult (chunkFor data k j)) else r[j]? := by
  induction order generalizing r with
  | nil => simp [applyWrites]
  | cons o os ih =>
    simp only [applyWrites, List.foldl_cons] at *
    rw [ih (r.set o (workerResult (chunkFor data k o))) (by simpa using hj)]
    by_cases hos : j ∈ os
    · simp [hos]
    · by_cases hoj : o = j
      · subst hoj
        simp [hos, List.getElem?_set, hj]
      · have hjo : ¬ j = o := fun h => hoj h.symm
        simp [hos, hoj, hjo, List.getElem?_set]

theorem applyWrites_eq_map (data : List Int) (k : Nat) (order : List Nat)
    (hcov : ∀ j, j < k → j ∈ order) :
    applyWrites data k order (List.replicate k 0) =
      (List.range k).map (fun i => workerResult (chunkFor data k i)) := by
  apply List.ext_getElem?
  intro n
  by_cases hn : n < k
  · rw [applyWrites_getElem? data k order _ n (by simpa using hn)]
    simp [hcov n hn, List.getElem?_range hn]
  · rw [List.getElem?_eq_none (l := applyWrites data k order (List.replicate k 0))
      (by rw [applyWrites_length]; simpa using Nat.le_of_not_lt hn)]
    rw [List.getElem?_eq_none (by simpa using Nat.le_of_not_lt hn)]

theorem sumSq_append (l1 l2 : List Int) :
    sumSq (l1 ++ l2) = sumSq l1 + sumSq l2 := by
  simp [sumSq]

theorem sumSq_take_drop (l : List Int) (n : Nat) :
    sumSq (l.take n) + sumSq (l.drop n) = sumSq l := by
  rw [← sumSq_append, List.take_append_drop]

theorem range_map_chunk_sum (data : List Int) (c m : Nat) :
    ((List.range m).map (fun i => sumSq ((data.drop (i * c)).take c))).sum =
      sumSq (data.take (m * c)) := by
  induction m with
  | zero => simp [sumSq]
  | succ m ih =>
    rw [List.range_succ, List.map_append, List.sum_append, ih]
    simp only [List.map_cons, List.map_nil, List.sum_cons, List.sum_nil, add_zero]
    rw [show (m + 1) * c = m * c + c from by ring, List.take_add, sumSq_append]

theorem chunkFor_lt (data : List Int) (k i : Nat) (h : i < k - 1) :
    chunkFor data k i =
      (data.drop (i * (data.length / k))).take (data.length / k) := by
  simp only [chunkFor]
  rw [if_pos h, Nat.add_sub_cancel_left]

theorem chunkFor_last (data : List Int) (m : Nat) :
    chunkFor data (m + 1) m = data.drop (m * (data.length / (m + 1))) := by
  simp only [chunkFor]
  rw [if_neg (by omega), ← List.length_drop]
  exact List.take_length _

theorem chunk_partition (data : List Int) (k : Nat) (hk : 1 ≤ k) :
    ((List.range k).map (fun i => workerResult (chunkFor data k i))).sum =
      sumSq data := by
  obtain ⟨m, rfl⟩ : ∃ m, k = m + 1 := ⟨k - 1, by omega⟩
  rw [List.range_succ, List.map_append, List.sum_append]
  have hmap : (List.range m).map (fun i => workerResult (chunkFor data (m + 1) i)) =
      (List.range m).map (fun i =>
        sumSq ((data.drop (i * (data.length / (m + 1)))).take
          (data.length / (m + 1)))) :=
    List.map_congr_left (fun i hi => by
      rw [workerResult, chunkFor_lt data (m + 1) i (by simpa using List.mem_range.1 hi)])
  rw [hmap, range_map_chunk_sum]
  simp only [List.map_cons, List.map_nil, List.sum_cons, List.sum_nil, add_zero]
  rw [workerResult, chunkFor_last data m]
  exact sumSq_take_drop data (m * (data.length / (m + 1)))

theorem pySlice_natCast (l : List Int) (s e : Nat) :
    pySlice l (s : Int) (e : Int) = (l.drop s).take (e - s) := by
  have hs : ¬ ((s : Int) < 0) := by omega
  have he : ¬ ((e : Int) < 0) := by omega
  simp [pySlice, hs, he]

theorem parallel_computation_eq_chunks (data : List Int) (k : Nat) (hk : 1 ≤ k) :
    parallel_computation data (k : Int) =
      .ok (((List.range k).map (fun i => workerResult (chunkFor data k i))).sum) := by
  have hne : (k : Int) ≠ 0 := by omega
  have hfdiv : Int.fdiv (data.length : Int) (k : Int) =
      ((data.length / k : Nat) : Int) := (Int.ofNat_fdiv data.length k).symm
  simp only [parallel_computation, if_neg hne]
  congr 1
  congr 1
  have hrange : pyRange (k : Int) = List.range k := by
    simp [pyRange]
  rw [hrange]
  apply List.map_congr_left
  intro i hi
  have hik : i < k := List.mem_range.1 hi
  rw [hfdiv]
  by_cases hcond : i < k - 1
  · rw [if_pos (by omega)]
    rw [show ((i : Int) * ((data.length / k : Nat) : Int)) =
        ((i * (data.length / k) : Nat) : Int) from by push_cast; ring]
    rw [show (((i * (data.length / k) : Nat) : Int) + ((data.length / k : Nat) : Int)) =
        ((i * (data.length / k) + data.length / k : Nat) : Int) from by push_cast; ring]
    rw [pySlice_natCast, chunkFor_lt data k i hcond, Nat.add_sub_cancel_left]
  · rw [if_neg (by omega)]
    rw [show ((i : Int) * ((data.length / k : Nat) : Int)) =
        ((i * (data.length / k) : Nat) : Int) from by push_cast; ring]
    rw [pySlice_natCast]
    simp only [chunkFor]
    rw [if_neg hcond]

/-- C10: for every integer list `data`, thread count `k` with
`1 ≤ k ≤ len(data)`, and every order in which the worker threads happen to
complete their slot writes (each worker writing its distinct slot at least
once — the joins guarantee every write lands), `parallel_computation`
returns the sum of `x * x` over `data`: the chunks are disjoint and cover
the data, so the result is independent of `k` and of thread scheduling. -/
theorem parallel_computation_total_correct (data : List Int) (k : Nat)
    (order : List Nat) (hk : 1 ≤ k) (hkd : k ≤ data.length)
    (hcov : ∀ j, j < k → j ∈ order) :
    parallelTotal data k order = sumSq data ∧
    parallel_computation data (k : Int) = .ok (sumSq data) := by
  constructor
  · rw [parallelTotal, applyWrites_eq_map data k order hcov, chunk_partition data k hk]
  · rw [parallel_computation_eq_chunks data k hk, chunk_partition data k hk]

/-- Witness for C10: the data `[1, 2, 3]` split over 2 threads, with the
second worker's write landing before the first worker's, still totals
`1 + 4 + 9`. -/
theorem parallel_computation_total_correct_witness :
    parallelTotal [1, 2, 3] 2 [1, 0] = sumSq [1, 2, 3] ∧
    parallel_computation [1, 2, 3] ((2 : Nat) : Int) = .ok (sumSq [1, 2, 3]) :=
  parallel_computation_total_correct [1, 2, 3] 2 [1, 0] (by decide) (by decide)
    (by decide)

end GilEvolution
